import Mathlib

/-!
Verification of the Finance-RAG retrieval core (chunker, vector store,
similarity search) against its natural-language specification.

The embedding below translates `src/mastra/workflows/documentProcessor.ts`
(chunkDocument, createDocumentChunks) and `src/mastra/db/vectorStore.ts`
(initialize, storeDocuments, calculateCosineSimilarity, searchSimilar).
JavaScript strings are modelled as `List Char`, JavaScript numbers used as
indices as `ℤ` (so that the negative-index behaviour of `String.slice` and
the `-1` sentinel of `lastIndexOf` are representable), and embedding
coordinates as `ℝ` (`Math.sqrt` becomes `Real.sqrt`).  The float product
`chunkSize * 0.7` is modelled exactly as the rational `7 * size / 10`,
stated via `10 * b > 10 * start + 7 * size`; for the concrete sizes used in
this development (10 and 1000) the IEEE double product is exactly `7 * size / 10`,
so the model agrees with the JavaScript comparison.
-/

/-- Length of a JS string, as an integer (JS indices are numbers). -/
def strLen (s : List Char) : ℤ := (s.length : ℤ)

/-- JS `String.prototype.slice(a, b)`: negative indices count from the end,
then both are clamped to `[0, length]` and an empty string results when the
clamped start is not below the clamped end. -/
def jsSlice (s : List Char) (a b : ℤ) : List Char :=
  let len := strLen s
  let lo := if a < 0 then max (len + a) 0 else min a len
  let hi := if b < 0 then max (len + b) 0 else min b len
  (s.take hi.toNat).drop lo.toNat

/-- JS `String.prototype.lastIndexOf(c)` for a single character: the largest
index holding `c`, or `-1` when `c` does not occur. -/
def lastIndexOf : List Char → Char → ℤ
  | [], _ => -1
  | ch :: rest, c =>
    let r := lastIndexOf rest c
    if 0 ≤ r then r + 1 else if ch = c then 0 else -1

/-- The sentence/line boundary used by `chunkDocument`:
`Math.max(chunk.lastIndexOf('.'), chunk.lastIndexOf('\n'))`.
Note the indices are relative to the start of the window `chunk`. -/
def maxBoundary (w : List Char) : ℤ := max (lastIndexOf w '.') (lastIndexOf w '\n')

/-- Whitespace predicate backing JS `String.prototype.trim` (space, tab,
line feed, carriage return; the full JS set also has less common code
points that never occur in this development). -/
def wsChar (c : Char) : Bool := c.isWhitespace

/-- JS `String.prototype.trim`: drop whitespace from both ends. -/
def jsTrim (s : List Char) : List Char :=
  ((s.dropWhile wsChar).reverse.dropWhile wsChar).reverse

/-- One iteration of the `while` loop of `chunkDocument`
(vectorStore.ts lines 579-597): returns the chunk taken by this iteration
and the next value of `start`.  `boundary` is `maxBoundary chunk`, an index
relative to the window, but the source compares it against the absolute
threshold `start + chunkSize * 0.7` and slices `content` (not `chunk`)
at `boundary + 1`. -/
def chunkStep (content : List Char) (size overlap start : ℤ) : List Char × ℤ :=
  let len := strLen content
  let e := min (start + size) len
  let chunk := jsSlice content start e
  if e < len then
    let boundary := maxBoundary chunk
    if 10 * boundary > 10 * start + 7 * size then
      (jsSlice content start (boundary + 1), boundary + 1 - overlap)
    else
      (chunk, e - overlap)
  else
    (chunk, e)

/-- End-of-iteration push (vectorStore.ts lines 599-601): the trimmed chunk
is kept only when its trimmed length exceeds 50 characters. -/
def pushChunk (acc : List (List Char)) (c : List Char) : List (List Char) :=
  if 50 < (jsTrim c).length then jsTrim c :: acc else acc

/-- Fuelled run of the `while (start < content.length)` loop of
`chunkDocument`.  `none` means the fuel was exhausted before the loop
exited (the loop is not structurally terminating: for large overlaps it
loops forever, see the C1 counterexample). -/
def chunkRun (content : List Char) (size overlap : ℤ) :
    ℕ → ℤ → List (List Char) → Option (List (List Char))
  | 0, start, acc =>
    if start < strLen content then none else some acc.reverse
  | fuel + 1, start, acc =>
    if start < strLen content then
      let p := chunkStep content size overlap start
      chunkRun content size overlap fuel p.2 (pushChunk acc p.1)
    else
      some acc.reverse

/-- `chunkDocument(content, chunkSize, overlap)` with fuel `length + 1`,
which suffices whenever the loop terminates at all with a strictly
increasing cursor (proved below for `10 * overlap ≤ 7 * size`). -/
def chunkDocument (content : List Char) (size overlap : ℤ) : List (List Char) :=
  (chunkRun content size overlap (content.length + 1) 0 []).getD []

/-! ### Basic facts about the chunker loop -/

lemma min_eq_left_of_lt_right {a b : ℤ} (h : min a b < b) : min a b = a := by
  rcases le_total a b with hab | hab
  · exact min_eq_left hab
  · rw [min_eq_right hab] at h; omega

lemma chunkStep_snd_increase (content : List Char) (size overlap start : ℤ)
    (hs : 0 < size) (hso : 10 * overlap ≤ 7 * size)
    (h0 : 0 ≤ start) (hlt : start < strLen content) :
    start < (chunkStep content size overlap start).2 := by
  unfold chunkStep
  dsimp only
  by_cases he : min (start + size) (strLen content) < strLen content
  · have he2 : min (start + size) (strLen content) = start + size :=
      min_eq_left_of_lt_right he
    rw [if_pos he]
    by_cases hb : 10 * maxBoundary (jsSlice content start (min (start + size) (strLen content)))
        > 10 * start + 7 * size
    · rw [if_pos hb]
      dsimp only
      omega
    · rw [if_neg hb]
      dsimp only
      omega
  · rw [if_neg he]
    dsimp only
    have h1 : start + size ≤ min (start + size) (strLen content) ∨
        strLen content ≤ min (start + size) (strLen content) := by
      rcases le_total (start + size) (strLen content) with hab | hab
      · left; rw [min_eq_left hab]
      · right; rw [min_eq_right hab]
    have h2 : min (start + size) (strLen content) ≤ strLen content := min_le_right _ _
    omega

lemma chunkRun_isSome (content : List Char) (size overlap : ℤ)
    (hs : 0 < size) (hso : 10 * overlap ≤ 7 * size) :
    ∀ (fuel : ℕ) (start : ℤ) (acc : List (List Char)),
      0 ≤ start → strLen content - start ≤ (fuel : ℤ) →
      (chunkRun content size overlap fuel start acc).isSome = true := by
  intro fuel
  induction fuel with
  | zero =>
    intro start acc h0 hf
    unfold chunkRun
    rw [if_neg (by omega)]
    rfl
  | succ n ih =>
    intro start acc h0 hf
    unfold chunkRun
    by_cases h : start < strLen content
    · rw [if_pos h]
      have hinc := chunkStep_snd_increase content size overlap start hs hso h0 h
      apply ih
      · omega
      · push_cast
        push_cast at hf
        omega
    · rw [if_neg h]
      rfl

/-! ### Characterisation of `lastIndexOf` and `maxBoundary` -/

lemma lastIndexOf_of_not_mem (s : List Char) (c : Char) (h : c ∉ s) :
    lastIndexOf s c = -1 := by
  induction s with
  | nil => rfl
  | cons a t ih =>
    simp only [List.mem_cons, not_or] at h
    unfold lastIndexOf
    rw [ih h.2]
    rw [if_neg (by omega), if_neg (fun h2 => h.1 h2.symm)]

lemma lastIndexOf_cons (a : Char) (t : List Char) (c : Char) :
    lastIndexOf (a :: t) c =
      if 0 ≤ lastIndexOf t c then lastIndexOf t c + 1 else if a = c then 0 else -1 := rfl

lemma lastIndexOf_nonneg_getElem (s : List Char) (c : Char) :
    0 ≤ lastIndexOf s c → s[(lastIndexOf s c).toNat]? = some c := by
  induction s with
  | nil => intro h; rw [lastIndexOf] at h; omega
  | cons a t ih =>
    intro h
    rw [lastIndexOf_cons] at h ⊢
    by_cases hr : 0 ≤ lastIndexOf t c
    · rw [if_pos hr]
      have htn : (lastIndexOf t c + 1).toNat = (lastIndexOf t c).toNat + 1 := by omega
      rw [htn, List.getElem?_cons_succ]
      exact ih hr
    · rw [if_neg hr] at h ⊢
      by_cases hac : a = c
      · rw [if_pos hac]
        simpa using hac
      · rw [if_neg hac] at h
        omega

lemma lastIndexOf_of_last (s : List Char) (c : Char) (b : ℕ) (hb : b < s.length)
    (hc : s[b] = c) (hlast : ∀ j (hj : j < s.length), b < j → s[j] ≠ c) :
    lastIndexOf s c = (b : ℤ) := by
  induction s generalizing b with
  | nil => exact absurd hb (by simp)
  | cons a t ih =>
    cases b with
    | zero =>
      have hnot : c ∉ t := by
        intro hmem
        obtain ⟨j, hj, hget⟩ := List.mem_iff_getElem.mp hmem
        exact hlast (j + 1) (by simpa using Nat.succ_lt_succ hj)
          (Nat.succ_pos j) (by simpa using hget)
      rw [lastIndexOf_cons, lastIndexOf_of_not_mem t c hnot]
      rw [if_neg (by omega), if_pos (by simpa using hc)]
      rfl
    | succ k =>
      have hkt : k < t.length := by simpa using hb
      have hlt : lastIndexOf t c = (k : ℤ) := by
        apply ih k hkt (by simpa using hc)
        intro j hj hgt
        have := hlast (j + 1) (by simpa using Nat.succ_lt_succ hj) (by omega)
        simpa using this
      rw [lastIndexOf_cons, hlt, if_pos (by omega)]
      push_cast
      ring

lemma maxBoundary_of_last (w : List Char) (b : ℕ) (hb : b < w.length)
    (hc : w[b] = '.' ∨ w[b] = '\n')
    (hlast : ∀ j (hj : j < w.length), b < j → ¬(w[j] = '.' ∨ w[j] = '\n')) :
    maxBoundary w = (b : ℤ) := by
  have key : ∀ c : Char, (c = '.' ∨ c = '\n') → lastIndexOf w c ≤ (b : ℤ) := by
    intro c hcterm
    by_cases hn : 0 ≤ lastIndexOf w c
    · obtain ⟨hlt2, hget⟩ := List.getElem?_eq_some.mp (lastIndexOf_nonneg_getElem w c hn)
      by_contra hgt
      push_neg at hgt
      have hbt : b < (lastIndexOf w c).toNat := by omega
      refine hlast _ hlt2 hbt ?_
      rcases hcterm with rfl | rfl
      · exact Or.inl hget
      · exact Or.inr hget
    · omega
  rcases hc with h | h
  · have h1 : lastIndexOf w '.' = (b : ℤ) :=
      lastIndexOf_of_last w '.' b hb h (fun j hj hgt heq => hlast j hj hgt (Or.inl heq))
    have h2 := key '\n' (Or.inr rfl)
    unfold maxBoundary
    rw [h1]
    exact max_eq_left h2
  · have h1 : lastIndexOf w '\n' = (b : ℤ) :=
      lastIndexOf_of_last w '\n' b hb h (fun j hj hgt heq => hlast j hj hgt (Or.inr heq))
    have h2 := key '.' (Or.inl rfl)
    unfold maxBoundary
    rw [h1]
    exact max_eq_right h2

/-! ### `jsTrim` is idempotent; every kept chunk is trimmed and substantial -/

lemma head?_dropWhile_not (p : Char → Bool) (l : List Char) (c : Char)
    (h : (l.dropWhile p).head? = some c) : p c = false := by
  induction l with
  | nil => simp at h
  | cons a t ih =>
    rw [List.dropWhile_cons] at h
    by_cases ha : p a = true
    · rw [if_pos ha] at h
      exact ih h
    · rw [if_neg ha] at h
      simp only [List.head?_cons, Option.some.injEq] at h
      subst h
      simpa using ha

lemma dropWhile_eq_self_of_head? (p : Char → Bool) (l : List Char)
    (h : ∀ c, l.head? = some c → p c = false) : l.dropWhile p = l := by
  cases l with
  | nil => rfl
  | cons a t =>
    rw [List.dropWhile_cons, if_neg]
    simp [h a rfl]

lemma getLast?_dropWhile (p : Char → Bool) (l : List Char)
    (h : l.dropWhile p ≠ []) : (l.dropWhile p).getLast? = l.getLast? := by
  obtain ⟨t, ht⟩ := @List.dropWhile_suffix _ l p
  conv_rhs => rw [← ht]
  rw [List.getLast?_append]
  cases hd : (l.dropWhile p).getLast? with
  | none => exact absurd (List.getLast?_eq_none_iff.mp hd) h
  | some x => rfl

lemma jsTrim_idem (l : List Char) : jsTrim (jsTrim l) = jsTrim l := by
  unfold jsTrim
  by_cases hB : (l.dropWhile wsChar).reverse.dropWhile wsChar = []
  · rw [hB]
    rfl
  · have h1 : ((l.dropWhile wsChar).reverse.dropWhile wsChar).reverse.dropWhile wsChar
        = ((l.dropWhile wsChar).reverse.dropWhile wsChar).reverse := by
      apply dropWhile_eq_self_of_head?
      intro c hc
      rw [List.head?_reverse] at hc
      rw [getLast?_dropWhile wsChar _ hB] at hc
      rw [List.getLast?_reverse] at hc
      exact head?_dropWhile_not wsChar l c hc
    rw [h1, List.reverse_reverse]
    have h2 : ((l.dropWhile wsChar).reverse.dropWhile wsChar).dropWhile wsChar
        = (l.dropWhile wsChar).reverse.dropWhile wsChar := by
      apply dropWhile_eq_self_of_head?
      intro c hc
      exact head?_dropWhile_not wsChar _ c hc
    rw [h2]

/-- The property claimed of every emitted chunk: it is its own trim
(whitespace-trimmed) and its (trimmed) length exceeds 50. -/
def goodChunk (c : List Char) : Prop := jsTrim c = c ∧ 50 < c.length

lemma pushChunk_good (acc : List (List Char)) (c : List Char)
    (h : ∀ x ∈ acc, goodChunk x) : ∀ x ∈ pushChunk acc c, goodChunk x := by
  unfold pushChunk
  by_cases hlen : 50 < (jsTrim c).length
  · rw [if_pos hlen]
    intro x hx
    rcases List.mem_cons.mp hx with rfl | hx
    · exact ⟨jsTrim_idem c, hlen⟩
    · exact h x hx
  · rw [if_neg hlen]
    exact h

lemma chunkRun_good (content : List Char) (size overlap : ℤ) :
    ∀ (fuel : ℕ) (start : ℤ) (acc res : List (List Char)),
      (∀ x ∈ acc, goodChunk x) →
      chunkRun content size overlap fuel start acc = some res →
      ∀ x ∈ res, goodChunk x := by
  intro fuel
  induction fuel with
  | zero =>
    intro start acc res hacc hrun
    unfold chunkRun at hrun
    by_cases h : start < strLen content
    · rw [if_pos h] at hrun
      exact absurd hrun (by simp)
    · rw [if_neg h] at hrun
      obtain rfl : acc.reverse = res := by simpa using hrun
      intro x hx
      exact hacc x (List.mem_reverse.mp hx)
  | succ n ih =>
    intro start acc res hacc hrun
    unfold chunkRun at hrun
    by_cases h : start < strLen content
    · rw [if_pos h] at hrun
      exact ih _ _ _ (pushChunk_good acc _ hacc) hrun
    · rw [if_neg h] at hrun
      obtain rfl : acc.reverse = res := by simpa using hrun
      intro x hx
      exact hacc x (List.mem_reverse.mp hx)

lemma chunkDocument_good (content : List Char) (size overlap : ℤ) :
    ∀ x ∈ chunkDocument content size overlap, goodChunk x := by
  unfold chunkDocument
  cases hrun : chunkRun content size overlap (content.length + 1) 0 [] with
  | none => simp
  | some res =>
    intro x hx
    exact chunkRun_good content size overlap _ _ _ _ (by simp) hrun x (by simpa using hx)

/-! ### Concrete inputs used by the chunker counterexamples -/

/-- A 20-character text whose only sentence terminator sits at index 8. -/
def c20 : List Char := "aaaaaaaa.aaaaaaaaaaa".data

/-- A 30-character text whose only sentence terminator sits at index 16. -/
def c30 : List Char := "aaaaaaaaaaaaaaaa.aaaaaaaaaaaaa".data

/-- The absolute position, in the text, of the last sentence terminator or
line break within the window `[start, e)` — this is the reading of
"boundary" used by the specification (position in the text), as opposed to
the window-relative index the source actually compares and slices with. -/
def lastTermPosAbs (content : List Char) (start e : ℤ) : ℤ :=
  start + maxBoundary (jsSlice content start e)

/-- C1 counterexample.  With chunk size 10, overlap 9 (so `0 ≤ o < s`) and a
20-character text (`L ≥ s`), at the very first iteration the window does not
reach the end of the text, the boundary-truncation branch fires
(its guard `boundary > start + size * 0.7` holds), and it computes the next
`start = boundary + 1 - overlap = 0`: an advance of `0 ≤ 0`, so the cursor is
not strictly increasing and the loop never terminates (50 iterations of fuel
are exhausted with the state repeating forever). -/
theorem chunker_nonmonotone_counterexample :
    ((0:ℤ) < 10 ∧ (0:ℤ) ≤ 9 ∧ (9:ℤ) < 10 ∧ 10 ≤ strLen c20) ∧
    min ((0:ℤ) + 10) (strLen c20) < strLen c20 ∧
    10 * maxBoundary (jsSlice c20 0 (min ((0:ℤ) + 10) (strLen c20))) > 10 * 0 + 7 * 10 ∧
    chunkStep c20 10 9 0 = (jsSlice c20 0 9, 0) ∧
    (chunkRun c20 10 9 50 0 []).isSome = false := by decide

/-- C1 (amended): when additionally the overlap is at most 70% of the chunk
size (`10 * overlap ≤ 7 * size`), the cursor strictly increases at every
iteration and the loop terminates within `length + 1` iterations. -/
theorem chunker_termination_amended (content : List Char) (size overlap : ℤ)
    (hs : 0 < size) (ho : 0 ≤ overlap) (hso : 10 * overlap ≤ 7 * size) :
    (∀ start : ℤ, 0 ≤ start → start < strLen content →
      start < (chunkStep content size overlap start).2) ∧
    (chunkRun content size overlap (content.length + 1) 0 []).isSome = true := by
  constructor
  · intro start h0 hlt
    exact chunkStep_snd_increase content size overlap start hs hso h0 hlt
  · apply chunkRun_isSome content size overlap hs hso
    · exact le_refl 0
    · unfold strLen
      push_cast
      omega

/-- Witness for `chunker_termination_amended` at size 10, overlap 2 on a
concrete 2-character text. -/
theorem chunker_termination_amended_witness :
    ((0:ℤ) < 10 ∧ (0:ℤ) ≤ 2 ∧ 10 * (2:ℤ) ≤ 7 * 10 ∧ (0:ℤ) ≤ 0 ∧ (0:ℤ) < strLen ("ab".data)) ∧
    (0:ℤ) < (chunkStep ("ab".data) 10 2 0).2 ∧
    (chunkRun ("ab".data) 10 2 (("ab".data).length + 1) 0 []).isSome = true := by
  have h := chunker_termination_amended ("ab".data) 10 2 (by decide) (by decide) (by decide)
  exact ⟨by decide, h.1 0 (by decide) (by decide), h.2⟩

/-- C2 counterexample.  On `c30` with size 10 and overlap 2 the iteration at
`start = 8` is reachable (the first iteration advances `0 ↦ 8`), its window
`[8, 18)` does not reach the end of the text, and the last terminator inside
the window sits at absolute text position 16, which is past
`start + size * 0.7 = 15`; the claim therefore requires the truncated chunk
`text[8..16]` and next start `16 + 1 - 2 = 15`, but the code (comparing
the window-relative index 8 against the absolute threshold 15) takes the
full window and advances to `18 - 2 = 16`. -/
theorem chunk_boundary_counterexample :
    chunkStep c30 10 2 0 = (jsSlice c30 0 10, 8) ∧
    min ((8:ℤ) + 10) (strLen c30) < strLen c30 ∧
    lastTermPosAbs c30 8 18 = 16 ∧
    10 * (16:ℤ) > 10 * 8 + 7 * 10 ∧
    chunkStep c30 10 2 8 = (jsSlice c30 8 18, 16) ∧
    jsSlice c30 8 18 ≠ jsSlice c30 8 (16 + 1) ∧
    (16:ℤ) ≠ 16 + 1 - 2 := by decide

/-- C2 (amended): in an iteration whose window does not reach the end of the
text, with `b` the *window-relative* offset of the last `'.'` or line break
inside the window: if `b` exceeds the absolute threshold
`start + size * 0.7`, the chunk taken is `content.slice(start, b + 1)` (the
relative offset used as an absolute slice end) and the next start is
`b + 1 - overlap`; otherwise the full window is taken and the next start is
`start + size - overlap`. -/
theorem chunk_boundary_amended (content : List Char) (size overlap start : ℤ) (b : ℕ)
    (hwin : min (start + size) (strLen content) < strLen content)
    (w : List Char) (hw : w = jsSlice content start (min (start + size) (strLen content)))
    (hb : b < w.length)
    (hterm : w[b] = '.' ∨ w[b] = '\n')
    (hlast : ∀ j (hj : j < w.length), b < j → ¬(w[j] = '.' ∨ w[j] = '\n')) :
    (10 * (b:ℤ) > 10 * start + 7 * size →
      chunkStep content size overlap start =
        (jsSlice content start ((b:ℤ) + 1), (b:ℤ) + 1 - overlap)) ∧
    (¬(10 * (b:ℤ) > 10 * start + 7 * size) →
      chunkStep content size overlap start = (w, start + size - overlap)) := by
  have hmb : maxBoundary w = (b : ℤ) := maxBoundary_of_last w b hb hterm hlast
  have he2 : min (start + size) (strLen content) = start + size :=
    min_eq_left_of_lt_right hwin
  constructor
  · intro hcond
    unfold chunkStep
    dsimp only
    rw [if_pos hwin, if_pos (by rw [← hw, hmb]; exact hcond)]
    rw [← hw, hmb]
  · intro hcond
    unfold chunkStep
    dsimp only
    rw [if_pos hwin, if_neg (by rw [← hw, hmb]; exact hcond)]
    rw [← hw, he2]

/-- Witness for `chunk_boundary_amended`: on `c20` with size 10, overlap 2,
start 0 the window-relative boundary 8 passes the threshold 7, and the code
indeed truncates to `text[0..8]` and advances to `8 + 1 - 2 = 7`. -/
theorem chunk_boundary_amended_witness :
    chunkStep c20 10 2 0 = (jsSlice c20 0 9, 7) := by
  have h := chunk_boundary_amended c20 10 2 0 8 (by decide) _ rfl (by decide)
    (by decide) (by decide)
  have h2 := h.1 (by decide)
  simpa using h2

/-! ### Chunk records (`createDocumentChunks`, documentProcessor.ts 476-500) -/

/-- A parsed source document, as produced by `parsePDFs`. -/
structure RawDoc where
  filename : List Char
  content : List Char
  year : List Char

/-- `ProcessedDocument` of documentProcessor.ts (metadata flattened into the
record; `embedding` is empty until `generateEmbeddings` fills it in). -/
structure ProcessedDocument where
  id : List Char
  content : List Char
  filename : List Char
  year : List Char
  chunkIndex : ℕ
  embedding : List ℝ

/-- The id suffix between the filename and the chunk number. -/
def chunkTag : List Char := "_chunk_".data

/-- The inner `for (let i = 0; i < chunks.length; i++)` loop of
`createDocumentChunks`: the i-th kept chunk becomes a record with
`id = filename + "_chunk_" + i` and `chunkIndex = i`. -/
def docChunksAux (filename year : List Char) : ℕ → List (List Char) → List ProcessedDocument
  | _, [] => []
  | i, c :: rest =>
    { id := filename ++ chunkTag ++ (Nat.repr i).data
      content := c
      filename := filename
      year := year
      chunkIndex := i
      embedding := [] } :: docChunksAux filename year (i + 1) rest

/-- Chunk records of one document: `chunkDocument(content, 1000, 200)`
indexed from 0. -/
def docChunks (d : RawDoc) : List ProcessedDocument :=
  docChunksAux d.filename d.year 0 (chunkDocument d.content 1000 200)

/-- `createDocumentChunks`: all documents, each contributing its chunk
records consecutively, in document order. -/
def createDocumentChunks (docs : List RawDoc) : List ProcessedDocument :=
  docs.flatMap docChunks

lemma docChunksAux_length (filename year : List Char) :
    ∀ (i : ℕ) (chunks : List (List Char)),
      (docChunksAux filename year i chunks).length = chunks.length := by
  intro i chunks
  induction chunks generalizing i with
  | nil => rfl
  | cons c rest ih => simp [docChunksAux, ih]

lemma docChunksAux_getElem? (filename year : List Char) :
    ∀ (i j : ℕ) (chunks : List (List Char)) (r : ProcessedDocument),
      (docChunksAux filename year i chunks)[j]? = some r →
      r.chunkIndex = i + j ∧
      r.id = filename ++ chunkTag ++ (Nat.repr (i + j)).data ∧
      chunks[j]? = some r.content := by
  intro i j chunks
  induction chunks generalizing i j with
  | nil => intro r hr; simp [docChunksAux] at hr
  | cons c rest ih =>
    intro r hr
    cases j with
    | zero =>
      rw [docChunksAux] at hr
      rw [List.getElem?_cons_zero] at hr
      have hr2 := Option.some.inj hr
      subst hr2
      exact ⟨rfl, rfl, by rw [List.getElem?_cons_zero]⟩
    | succ k =>
      rw [docChunksAux] at hr
      rw [List.getElem?_cons_succ] at hr
      have := ih (i + 1) k r hr
      refine ⟨by omega, ?_, by simpa using this.2.2⟩
      have harr : i + 1 + k = i + (k + 1) := by omega
      rw [← harr]
      exact this.2.1

/-- C7: chunk records.  `createDocumentChunks` emits, per document and in
document order, one record per kept chunk; the j-th record carries
`chunkIndex = j`, id `filename + "_chunk_" + j` and the j-th chunk of
`chunkDocument(content, 1000, 200)` as content; every such content is
whitespace-trimmed with trimmed length strictly greater than 50 (so the
`chunkIndex` values of a document form the strictly increasing sequence
`0, 1, 2, ...`). -/
theorem chunk_record_indexing :
    (∀ docs : List RawDoc, createDocumentChunks docs = docs.flatMap docChunks) ∧
    (∀ d : RawDoc, (docChunks d).length = (chunkDocument d.content 1000 200).length) ∧
    (∀ (d : RawDoc) (j : ℕ) (r : ProcessedDocument),
      (docChunks d)[j]? = some r →
      r.chunkIndex = j ∧
      r.id = d.filename ++ chunkTag ++ (Nat.repr j).data ∧
      (chunkDocument d.content 1000 200)[j]? = some r.content ∧
      jsTrim r.content = r.content ∧ 50 < r.content.length) := by
  refine ⟨fun docs => rfl, fun d => docChunksAux_length _ _ _ _, ?_⟩
  intro d j r hr
  have h := docChunksAux_getElem? d.filename d.year 0 j (chunkDocument d.content 1000 200) r hr
  have hmem : r.content ∈ chunkDocument d.content 1000 200 :=
    List.getElem?_mem (by simpa using h.2.2)
  have hgood := chunkDocument_good d.content 1000 200 r.content hmem
  exact ⟨by simpa using h.1, by simpa using h.2.1, by simpa using h.2.2,
    hgood.1, hgood.2⟩

/-- Concrete document for the C7 witness. -/
def dw : RawDoc := ⟨"f".data, List.replicate 60 'a', "2020".data⟩

/-- The single chunk record produced from `dw`. -/
def rw0 : ProcessedDocument :=
  ⟨"f".data ++ chunkTag ++ (Nat.repr 0).data, List.replicate 60 'a',
    "f".data, "2020".data, 0, []⟩

/-- Witness for `chunk_record_indexing` on the concrete document `dw`. -/
theorem chunk_record_indexing_witness :
    rw0.chunkIndex = 0 ∧
    rw0.id = dw.filename ++ chunkTag ++ (Nat.repr 0).data ∧
    (chunkDocument dw.content 1000 200)[0]? = some rw0.content ∧
    jsTrim rw0.content = rw0.content ∧ 50 < rw0.content.length := by
  have h := chunk_record_indexing.2.2 dw 0 rw0 (by rfl)
  exact ⟨h.1, h.2.1, h.2.2.1, h.2.2.2.1, h.2.2.2.2⟩

/-! ### Cosine similarity (vectorStore.ts 173-194) -/

/-- The dot product accumulated by the loop of `calculateCosineSimilarity`
(for equal-length inputs, which is the only case the loop runs in). -/
def dotList (a b : List ℝ) : ℝ := (List.zipWith (fun x y => x * y) a b).sum

/-- The accumulated sum of squares of one vector. -/
def sumSq (a : List ℝ) : ℝ := (a.map (fun x => x * x)).sum

open Classical in
/-- `calculateCosineSimilarity`: throws on a length mismatch, returns `0`
when either norm (`Math.sqrt` of the sum of squares) is zero, and otherwise
the dot product divided by the product of the norms. -/
noncomputable def calculateCosineSimilarity (vec1 vec2 : List ℝ) : Except String ℝ :=
  if vec1.length ≠ vec2.length then .error "Vectors must have the same length"
  else if Real.sqrt (sumSq vec1) = 0 ∨ Real.sqrt (sumSq vec2) = 0 then .ok 0
  else .ok (dotList vec1 vec2 / (Real.sqrt (sumSq vec1) * Real.sqrt (sumSq vec2)))

/-- C6: `calculateCosineSimilarity` fails exactly on a dimension mismatch;
on equal-length inputs it returns `0` (not an error) whenever either norm is
zero, and otherwise the dot product divided by the product of the norms. -/
theorem cosine_similarity_contract (a b : List ℝ) :
    ((∃ e, calculateCosineSimilarity a b = .error e) ↔ a.length ≠ b.length) ∧
    (a.length = b.length →
      (Real.sqrt (sumSq a) = 0 ∨ Real.sqrt (sumSq b) = 0) →
      calculateCosineSimilarity a b = .ok 0) ∧
    (a.length = b.length →
      Real.sqrt (sumSq a) ≠ 0 → Real.sqrt (sumSq b) ≠ 0 →
      calculateCosineSimilarity a b =
        .ok (dotList a b / (Real.sqrt (sumSq a) * Real.sqrt (sumSq b)))) := by
  unfold calculateCosineSimilarity
  refine ⟨⟨?_, ?_⟩, ?_, ?_⟩
  · rintro ⟨e, he⟩
    by_cases hlen : a.length ≠ b.length
    · exact hlen
    · rw [if_neg hlen] at he
      by_cases hz : Real.sqrt (sumSq a) = 0 ∨ Real.sqrt (sumSq b) = 0
      · rw [if_pos hz] at he; exact absurd he (by simp)
      · rw [if_neg hz] at he; exact absurd he (by simp)
  · intro hlen
    exact ⟨_, if_pos hlen⟩
  · intro hlen hz
    rw [if_neg (by omega), if_pos hz]
  · intro hlen h1 h2
    rw [if_neg (by omega), if_neg (by tauto)]

/-- Witness for `cosine_similarity_contract`: the zero vector pairs to
similarity 0 (not an error), and `[1] · [1]` gives exactly 1. -/
theorem cosine_similarity_contract_witness :
    calculateCosineSimilarity [(0:ℝ)] [(0:ℝ)] = .ok 0 ∧
    calculateCosineSimilarity [(1:ℝ)] [(1:ℝ)] = .ok 1 := by
  constructor
  · apply (cosine_similarity_contract [(0:ℝ)] [(0:ℝ)]).2.1 rfl
    left
    have : sumSq [(0:ℝ)] = 0 := by simp [sumSq]
    rw [this, Real.sqrt_zero]
  · have hs : sumSq [(1:ℝ)] = 1 := by simp [sumSq]
    have h := (cosine_similarity_contract [(1:ℝ)] [(1:ℝ)]).2.2 rfl
      (by rw [hs, Real.sqrt_one]; norm_num) (by rw [hs, Real.sqrt_one]; norm_num)
    rw [h, hs, Real.sqrt_one]
    have hd : dotList [(1:ℝ)] [(1:ℝ)] = 1 := by simp [dotList]
    rw [hd]
    norm_num

/-! ### Similarity search, scalar-fallback path (vectorStore.ts 267-328) -/

/-- A row of the `berkshire_documents` table as fetched by the scalar-mode
query (embedding stored as an opaque array). -/
structure DbRow where
  id : List Char
  content : List Char
  filename : List Char
  year : List Char
  chunk_index : ℤ
  total_chunks : ℤ
  embedding : List ℝ

/-- The search result shape returned by `searchSimilar`. -/
structure SearchResult where
  id : List Char
  content : List Char
  filename : List Char
  year : List Char
  similarity : ℝ
  chunkIndex : ℤ
  totalChunks : ℤ

/-- Row-to-result projection used inside the `rows.map` of the scalar path. -/
def mkResult (row : DbRow) (sim : ℝ) : SearchResult :=
  { id := row.id, content := row.content, filename := row.filename,
    year := row.year, similarity := sim,
    chunkIndex := row.chunk_index, totalChunks := row.total_chunks }

/-- The `rows.map` of the scalar path: each row is scored against the query
embedding; the first dimension mismatch throws (and the outer catch
re-raises). -/
noncomputable def scoreRows (q : List ℝ) : List DbRow → Except String (List SearchResult)
  | [] => .ok []
  | row :: rest =>
    match calculateCosineSimilarity q row.embedding with
    | .error e => .error e
    | .ok sim =>
      match scoreRows q rest with
      | .error e => .error e
      | .ok tail => .ok (mkResult row sim :: tail)

open Classical in
/-- The `if (filters?.minSimilarity)` guard followed by the inclusive
filter: JavaScript truthiness makes a present-but-zero threshold behave
exactly like an absent one. -/
noncomputable def thresholdFilter (minSimilarity : Option ℝ) (l : List SearchResult) :
    List SearchResult :=
  match minSimilarity with
  | none => l
  | some t => if t = 0 then l else l.filter (fun item => decide (t ≤ item.similarity))

open Classical in
/-- The comparator `(a, b) => b.similarity - a.similarity` of the final
`.sort`, as the total Boolean order "a may come before b". -/
noncomputable def simDescLe (a b : SearchResult) : Bool :=
  decide (b.similarity ≤ a.similarity)

/-- The `WHERE` pushdown of the optional `year`/`filename` filters. -/
def metaMatch : Option (List Char) → List Char → Bool
  | none, _ => true
  | some v, w => v == w

/-- `searchSimilar` (scalar-fallback path): fetch the rows matching the
metadata filters, score each against the query embedding, apply the
truthiness-guarded `minSimilarity` filter, sort by similarity descending
with the stable built-in sort, and truncate to `limit`. -/
noncomputable def searchSimilar (queryEmbedding : List ℝ) (lim : ℕ)
    (yearF fileF : Option (List Char)) (minSimilarity : Option ℝ)
    (rows : List DbRow) : Except String (List SearchResult) :=
  let candidates := rows.filter (fun row => metaMatch yearF row.year && metaMatch fileF row.filename)
  match scoreRows queryEmbedding candidates with
  | .error e => .error e
  | .ok similarities =>
    .ok (((thresholdFilter minSimilarity similarities).mergeSort simDescLe).take lim)

lemma simDescLe_trans (a b c : SearchResult) :
    simDescLe a b = true → simDescLe b c = true → simDescLe a c = true := by
  unfold simDescLe
  intro h1 h2
  rw [decide_eq_true_eq] at h1 h2 ⊢
  exact le_trans h2 h1

lemma simDescLe_total (a b : SearchResult) : (simDescLe a b || simDescLe b a) = true := by
  unfold simDescLe
  rcases le_total a.similarity b.similarity with h | h
  · rw [decide_eq_true h]; simp
  · rw [decide_eq_true h]; simp

/-- Stability of the sort: restricting the sorted list to the results with
one fixed similarity value yields exactly the same (insertion-ordered)
subsequence as restricting the input. -/
lemma mergeSort_filter_key (l : List SearchResult) (v : ℝ) :
    (l.mergeSort simDescLe).filter (fun r => decide (r.similarity = v)) =
      l.filter (fun r => decide (r.similarity = v)) := by
  have hpw : (l.filter (fun r => decide (r.similarity = v))).Pairwise
      (fun a b => simDescLe a b = true) := by
    apply List.pairwise_of_forall_mem_list
    intro a ha b hb
    simp only [List.mem_filter, decide_eq_true_eq] at ha hb
    unfold simDescLe
    rw [decide_eq_true_eq, ha.2, hb.2]
  have hsub : (l.filter (fun r => decide (r.similarity = v))).Sublist l :=
    List.filter_sublist l
  have h1 := List.sublist_mergeSort simDescLe_trans simDescLe_total hpw hsub
  have h2 : ((l.mergeSort simDescLe).filter (fun r => decide (r.similarity = v))).Perm
      (l.filter (fun r => decide (r.similarity = v))) :=
    (List.mergeSort_perm l simDescLe).filter (fun r => decide (r.similarity = v))
  have h3 := h1.filter (fun r => decide (r.similarity = v))
  rw [List.filter_filter] at h3
  simp only [Bool.and_self] at h3
  exact (h3.eq_of_length h2.length_eq.symm).symm

lemma filter_take_front (p : SearchResult → Bool) (l : List SearchResult) (n : ℕ) :
    (l.take n).filter p <+: l.filter p := by
  refine ⟨(l.drop n).filter p, ?_⟩
  rw [← List.filter_append, List.take_append_drop]

/-- Results surviving a non-zero threshold satisfy it (inclusively). -/
lemma mem_search_threshold (t : ℝ) (hne : t ≠ 0) (q : List ℝ) (lim : ℕ)
    (rows : List DbRow) (out : List SearchResult)
    (h : searchSimilar q lim none none (some t) rows = .ok out) :
    ∀ r ∈ out, t ≤ r.similarity := by
  intro r hr
  unfold searchSimilar at h
  dsimp only at h
  cases hs : scoreRows q (rows.filter
      (fun row => metaMatch none row.year && metaMatch none row.filename)) with
  | error e => rw [hs] at h; exact absurd h (by simp)
  | ok scored =>
    rw [hs] at h
    have hout : ((thresholdFilter (some t) scored).mergeSort simDescLe).take lim = out := by
      simpa using h
    rw [← hout] at hr
    have hr2 := List.mem_mergeSort.mp (List.mem_of_mem_take hr)
    simp only [thresholdFilter] at hr2
    rw [if_neg hne] at hr2
    have := List.of_mem_filter hr2
    exact of_decide_eq_true this

/-- C3 (amended): for every similarity search on the scalar path whose
`minSimilarity`, when present, is non-zero (a present-but-zero threshold is
skipped by the truthiness guard, see the counterexample), a successful
result is sorted by similarity descending, with ties kept in insertion
order (stable sort), the inclusive threshold is applied before truncation
to `limit`, the result has length at most `limit`, and all qualifying
records are returned whenever at most `limit` of them qualify. -/
theorem search_ranking_amended (q : List ℝ) (lim : ℕ) (minSim : Option ℝ)
    (rows : List DbRow) (out : List SearchResult)
    (hnz : ∀ t, minSim = some t → t ≠ 0)
    (hout : searchSimilar q lim none none minSim rows = .ok out) :
    ∃ scored, scoreRows q rows = .ok scored ∧
      out.length ≤ lim ∧
      List.Pairwise (fun a b => b.similarity ≤ a.similarity) out ∧
      (∀ t, minSim = some t → ∀ r ∈ out, t ≤ r.similarity) ∧
      (∀ v : ℝ, out.filter (fun r => decide (r.similarity = v)) <+:
        (thresholdFilter minSim scored).filter (fun r => decide (r.similarity = v))) ∧
      ((thresholdFilter minSim scored).length ≤ lim →
        out.Perm (thresholdFilter minSim scored)) := by
  have hthreshold := fun t ht => mem_search_threshold t (hnz t ht) q lim rows out (ht ▸ hout)
  unfold searchSimilar at hout
  dsimp only at hout
  have hcand : rows.filter
      (fun row => metaMatch none row.year && metaMatch none row.filename) = rows := by
    simp [metaMatch]
  rw [hcand] at hout
  cases hs : scoreRows q rows with
  | error e => rw [hs] at hout; exact absurd hout (by simp)
  | ok scored =>
    rw [hs] at hout
    have hout2 : ((thresholdFilter minSim scored).mergeSort simDescLe).take lim = out := by
      simpa using hout
    refine ⟨scored, rfl, ?_, ?_, hthreshold, ?_, ?_⟩
    · rw [← hout2, List.length_take]
      exact min_le_left _ _
    · have hsorted := List.sorted_mergeSort simDescLe_trans simDescLe_total
        (thresholdFilter minSim scored)
      have hsub := List.take_sublist lim ((thresholdFilter minSim scored).mergeSort simDescLe)
      have hp := List.Pairwise.sublist hsub hsorted
      rw [hout2] at hp
      exact hp.imp (fun h => by
        unfold simDescLe at h
        exact of_decide_eq_true h)
    · intro v
      have h1 := filter_take_front (fun r => decide (r.similarity = v))
        ((thresholdFilter minSim scored).mergeSort simDescLe) lim
      rw [mergeSort_filter_key] at h1
      rw [hout2] at h1
      exact h1
    · intro hlen
      have hM : ((thresholdFilter minSim scored).mergeSort simDescLe).length =
          (thresholdFilter minSim scored).length := List.length_mergeSort _
      rw [← hout2, List.take_of_length_le (by rw [hM]; exact hlen)]
      exact List.mergeSort_perm _ _

/-- Evaluation helper: cosine of equal-length unit-square-norm vectors is
their dot product. -/
lemma calcCos_unit (a b : List ℝ) (hlen : a.length = b.length)
    (h1 : sumSq a = 1) (h2 : sumSq b = 1) :
    calculateCosineSimilarity a b = .ok (dotList a b) := by
  have hno : ¬(Real.sqrt (sumSq a) = 0 ∨ Real.sqrt (sumSq b) = 0) := by
    rw [h1, h2, Real.sqrt_one]
    norm_num
  unfold calculateCosineSimilarity
  rw [if_neg (by omega), if_neg hno, h1, h2, Real.sqrt_one]
  norm_num

/-- Concrete stored row whose similarity to the query `[1]` is `-1`. -/
def rowNeg : DbRow := ⟨"r1".data, "c1".data, "f1".data, "2020".data, 0, 1, [(-1 : ℝ)]⟩

/-- The search result produced from `rowNeg`. -/
def resNeg : SearchResult := ⟨"r1".data, "c1".data, "f1".data, "2020".data, -1, 0, 1⟩

/-- Concrete stored row whose similarity to the query `[1]` is `1`. -/
def rowPos : DbRow := ⟨"r2".data, "c2".data, "f2".data, "2021".data, 0, 1, [(1 : ℝ)]⟩

/-- The search result produced from `rowPos`. -/
def resPos : SearchResult := ⟨"r2".data, "c2".data, "f2".data, "2021".data, 1, 0, 1⟩

lemma scoreRows_rowNeg : scoreRows [(1:ℝ)] [rowNeg] = .ok [resNeg] := by
  have hcos : calculateCosineSimilarity [(1:ℝ)] rowNeg.embedding = .ok (-1) := by
    have h := calcCos_unit [(1:ℝ)] [(-1:ℝ)] rfl (by norm_num [sumSq]) (by norm_num [sumSq])
    have hd : dotList [(1:ℝ)] [(-1:ℝ)] = -1 := by norm_num [dotList]
    rw [hd] at h
    exact h
  rw [scoreRows, hcos, scoreRows]
  rfl

lemma scoreRows_rowPos : scoreRows [(1:ℝ)] [rowPos] = .ok [resPos] := by
  have hcos : calculateCosineSimilarity [(1:ℝ)] rowPos.embedding = .ok 1 := by
    have h := calcCos_unit [(1:ℝ)] [(1:ℝ)] rfl (by norm_num [sumSq]) (by norm_num [sumSq])
    have hd : dotList [(1:ℝ)] [(1:ℝ)] = 1 := by norm_num [dotList]
    rw [hd] at h
    exact h
  rw [scoreRows, hcos, scoreRows]
  rfl

lemma search_eval_neg :
    searchSimilar [(1:ℝ)] 5 none none (some 0) [rowNeg] = .ok [resNeg] := by
  unfold searchSimilar
  dsimp only
  have hcand : List.filter
      (fun row => metaMatch none row.year && metaMatch none row.filename) [rowNeg]
      = [rowNeg] := by
    simp [metaMatch]
  rw [hcand, scoreRows_rowNeg]
  dsimp only
  have hth : thresholdFilter (some 0) [resNeg] = [resNeg] := by
    simp [thresholdFilter]
  rw [hth, List.mergeSort_singleton]
  rfl

lemma search_eval_pos :
    searchSimilar [(1:ℝ)] 5 none none (some (1/2)) [rowPos] = .ok [resPos] := by
  unfold searchSimilar
  dsimp only
  have hcand : List.filter
      (fun row => metaMatch none row.year && metaMatch none row.filename) [rowPos]
      = [rowPos] := by
    simp [metaMatch]
  rw [hcand, scoreRows_rowPos]
  dsimp only
  have hth : thresholdFilter (some (1/2)) [resPos] = [resPos] := by
    simp only [thresholdFilter]
    rw [if_neg (by norm_num)]
    rw [List.filter_cons, if_pos (by rw [decide_eq_true_eq]; norm_num [resPos])]
    rfl
  rw [hth, List.mergeSort_singleton]
  rfl

/-- C3 counterexample.  With a present threshold of exactly `0` the
truthiness guard `if (filters?.minSimilarity)` skips the filter entirely,
so a record with similarity `-1 < 0` is returned even though the claim
("kept iff similarity ≥ threshold" whenever a threshold is present)
requires it to be dropped. -/
theorem search_threshold_zero_counterexample :
    searchSimilar [(1:ℝ)] 5 none none (some 0) [rowNeg] = .ok [resNeg] ∧
    resNeg.similarity < 0 ∧ ¬((0:ℝ) ≤ resNeg.similarity) := by
  refine ⟨search_eval_neg, ?_, ?_⟩
  · norm_num [resNeg]
  · norm_num [resNeg]

/-- Witness for `search_ranking_amended` on a concrete one-row search with
threshold `1/2`. -/
theorem search_ranking_amended_witness :
    ([resPos] : List SearchResult).length ≤ 5 ∧
    List.Pairwise (fun a b => b.similarity ≤ a.similarity) [resPos] ∧
    (1/2 : ℝ) ≤ resPos.similarity := by
  obtain ⟨scored, hsc, hlen, hpw, hth, hpre, hperm⟩ :=
    search_ranking_amended [(1:ℝ)] 5 (some (1/2)) [rowPos] [resPos]
      (by
        intro t ht
        have h2 := Option.some.inj ht
        rw [← h2]
        norm_num)
      search_eval_pos
  exact ⟨hlen, hpw, hth (1/2) rfl resPos (by simp)⟩

/-! ### Indexed-mode query construction (vectorStore.ts 214-254) -/

/-- A `WHERE`-clause fragment the indexed branch of `searchSimilar` may
append after the initial `WHERE 1=1`: `AND year = $k`,
`AND filename = $k`, or `AND (1 - (embedding <=> $1::vector)) >= $k`. -/
inductive SqlPred where
  | yearEq (y : List Char)
  | filenameEq (f : List Char)
  | simAtLeast (t : ℝ)

open Classical in
/-- The sequence of fragments built by the indexed branch
(vectorStore.ts lines 226-249), in program order: each of the three
`if (filters?...)` blocks appends its fragment only when the filter value
is truthy (for the strings `year`/`filename`: present and non-empty; for
the number `minSimilarity`: present and non-zero). -/
noncomputable def indexedWherePreds (yearF fileF : Option (List Char)) (minSim : Option ℝ) :
    List SqlPred :=
  (match yearF with
   | none => []
   | some y => if y = [] then [] else [SqlPred.yearEq y]) ++
  (match fileF with
   | none => []
   | some f => if f = [] then [] else [SqlPred.filenameEq f]) ++
  (match minSim with
   | none => []
   | some t => if t = 0 then [] else [SqlPred.simAtLeast t])

/-- SQL evaluation of one fragment against a stored row whose server-side
similarity `1 - (embedding <=> $1::vector)` is `sim`. -/
def predHolds (year filename : List Char) (sim : ℝ) : SqlPred → Prop
  | .yearEq y => year = y
  | .filenameEq f => filename = f
  | .simAtLeast t => t ≤ sim

/-- SQL semantics of the built clause: a row is kept iff every appended
fragment holds (the leading `1=1` holds vacuously). -/
def passesWhere (year filename : List Char) (sim : ℝ) (preds : List SqlPred) : Prop :=
  ∀ p ∈ preds, predHolds year filename sim p

/-- C10: the truthiness guard on `minSimilarity`, in both backend modes.
Scalar path (lines 318-322): a present-but-zero threshold behaves exactly
like an absent one (no filtering at all, so negative-similarity results can
be returned, as the concrete search shows), and the inclusive threshold is
applied exactly when the value is present and non-zero.  Indexed path
(lines 245-249): with `minSimilarity = 0` the built query carries no
threshold fragment at all (it equals the query built with no threshold, so
rows of negative similarity pass its `WHERE` clause), and a present
non-zero `t` appends exactly the inclusive fragment
`AND (1 - (embedding <=> $1::vector)) >= t`, which a row satisfies iff
`t ≤ sim`. -/
theorem minSimilarity_truthiness :
    (∀ (q : List ℝ) (lim : ℕ) (rows : List DbRow),
      searchSimilar q lim none none (some 0) rows =
        searchSimilar q lim none none none rows) ∧
    (searchSimilar [(1:ℝ)] 5 none none (some 0) [rowNeg] = .ok [resNeg] ∧
      resNeg.similarity < 0) ∧
    (∀ (t : ℝ), t ≠ 0 →
      ∀ (q : List ℝ) (lim : ℕ) (rows : List DbRow) (out : List SearchResult),
        searchSimilar q lim none none (some t) rows = .ok out →
        ∀ r ∈ out, t ≤ r.similarity) ∧
    (∀ (yearF fileF : Option (List Char)),
      indexedWherePreds yearF fileF (some 0) = indexedWherePreds yearF fileF none) ∧
    (passesWhere ("2020".data) ("f1".data) (-1) (indexedWherePreds none none (some 0))) ∧
    (∀ (yearF fileF : Option (List Char)) (t : ℝ), t ≠ 0 →
      indexedWherePreds yearF fileF (some t) =
        indexedWherePreds yearF fileF none ++ [SqlPred.simAtLeast t]) ∧
    (∀ (year filename : List Char) (sim t : ℝ), t ≠ 0 →
      (passesWhere year filename sim (indexedWherePreds none none (some t)) ↔ t ≤ sim)) := by
  refine ⟨?_, ⟨search_eval_neg, by norm_num [resNeg]⟩, ?_, ?_, ?_, ?_, ?_⟩
  · intro q lim rows
    unfold searchSimilar
    dsimp only
    cases hs : scoreRows q (rows.filter
        (fun row => metaMatch none row.year && metaMatch none row.filename)) with
    | error e => rfl
    | ok scored =>
      dsimp only
      have hth : thresholdFilter (some 0) scored = thresholdFilter none scored := by
        simp [thresholdFilter]
      rw [hth]
  · intro t hne q lim rows out h
    exact mem_search_threshold t hne q lim rows out h
  · intro yearF fileF
    unfold indexedWherePreds
    dsimp only
    rw [if_pos rfl]
  · intro p hp
    unfold indexedWherePreds at hp
    dsimp only at hp
    rw [if_pos rfl] at hp
    simp at hp
  · intro yearF fileF t ht
    unfold indexedWherePreds
    dsimp only
    rw [if_neg ht]
    simp
  · intro year filename sim t ht
    unfold passesWhere indexedWherePreds
    dsimp only
    rw [if_neg ht]
    simp only [List.nil_append]
    constructor
    · intro h
      exact h (SqlPred.simAtLeast t) (by simp)
    · intro h p hp
      have hp2 : p = SqlPred.simAtLeast t := by simpa using hp
      rw [hp2]
      exact h

/-- Witness for `minSimilarity_truthiness` at concrete inputs, exercising
both the scalar path and the indexed query construction. -/
theorem minSimilarity_truthiness_witness :
    searchSimilar [] 0 none none (some 0) ([] : List DbRow) =
      searchSimilar [] 0 none none none ([] : List DbRow) ∧
    (1/2 : ℝ) ≤ resPos.similarity ∧
    indexedWherePreds none none (some 0) = indexedWherePreds none none none ∧
    passesWhere ("2020".data) ("f1".data) 1 (indexedWherePreds none none (some (1/2))) := by
  refine ⟨minSimilarity_truthiness.1 [] 0 [], ?_, ?_, ?_⟩
  · exact minSimilarity_truthiness.2.2.1 (1/2) (by norm_num) [(1:ℝ)] 5 [rowPos] [resPos]
      search_eval_pos resPos (by simp)
  · exact minSimilarity_truthiness.2.2.2.1 none none
  · exact (minSimilarity_truthiness.2.2.2.2.2.2 ("2020".data) ("f1".data) 1 (1/2)
      (by norm_num)).mpr (by norm_num)

/-! ### Persistent store (`storeDocuments`, vectorStore.ts 115-170) -/

/-- A persisted row of `berkshire_documents` (all columns of the DDL). -/
structure StoredRow where
  content : List Char
  filename : List Char
  year : List Char
  chunk_index : ℕ
  total_chunks : ℕ
  source : List Char
  embedding : List ℝ
  created_at : ℕ
  updated_at : ℕ

/-- The table: an id-keyed association list, in insertion order. -/
abbrev DB := List (List Char × StoredRow)

/-- Row lookup by primary key. -/
def lookupRow : DB → List Char → Option StoredRow
  | [], _ => none
  | (k, r) :: rest, i => if k = i then some r else lookupRow rest i

/-- The column default of `source`. -/
def defaultSource : List Char := "berkshire_hathaway_letters".data

/-- The row inserted for a fresh id: metadata from the document,
`total_chunks` hard-coded to 1, `source` and the timestamps defaulted. -/
def mkRow (now : ℕ) (d : ProcessedDocument) : StoredRow :=
  { content := d.content, filename := d.filename, year := d.year,
    chunk_index := d.chunkIndex, total_chunks := 1, source := defaultSource,
    embedding := d.embedding, created_at := now, updated_at := now }

/-- The `ON CONFLICT (id) DO UPDATE` clause: only `content`, `embedding`
and `updated_at` change on the conflicting row; every other row is kept. -/
def updateRow (db : DB) (i c : List Char) (e : List ℝ) (now : ℕ) : DB :=
  db.map (fun p => if p.1 = i then
    (p.1, { p.2 with content := c, embedding := e, updated_at := now }) else p)

/-- One upsert of `storeDocuments`.  In indexed mode (`useVec = true`) the
`vector(1536)` column of the DDL (vectorStore.ts line 57) makes the storage
engine reject an embedding whose dimension is not 1536; the scalar fallback
stores the embedding as opaque JSON with no dimension check. -/
def upsertDoc (useVec : Bool) (now : ℕ) (db : DB) (d : ProcessedDocument) :
    Except String DB :=
  if useVec = true ∧ d.embedding.length ≠ 1536 then
    .error "expected 1536 dimensions"
  else
    match lookupRow db d.id with
    | some _ => .ok (updateRow db d.id d.content d.embedding now)
    | none => .ok (db ++ [(d.id, mkRow now d)])

/-- The transaction body: upserts applied in order on the working copy;
`fail i = true` models the i-th upsert failing for an external reason
(connection loss, constraint violation, ...). -/
def runUpserts (useVec : Bool) (now : ℕ) (fail : ℕ → Bool) :
    ℕ → DB → List ProcessedDocument → Except String DB
  | _, txn, [] => .ok txn
  | i, txn, d :: rest =>
    if fail i then .error "upsert failed"
    else
      match upsertDoc useVec now txn d with
      | .error e => .error e
      | .ok txn2 => runUpserts useVec now fail (i + 1) txn2 rest

/-- `storeDocuments`: `BEGIN`, per-record upsert, `COMMIT`; on any failure
`ROLLBACK` (the visible state stays the pre-transaction one) and the error
is re-raised.  The returned pair is (visible state, re-raised error). -/
def storeDocuments (useVec : Bool) (now : ℕ) (fail : ℕ → Bool) (db : DB)
    (docs : List ProcessedDocument) : DB × Option String :=
  match runUpserts useVec now fail 0 db docs with
  | .ok txn => (txn, none)
  | .error e => (db, some e)

/-- The oracle-free fold of the individual upserts, used to state what a
successful commit contains. -/
def foldUpserts (useVec : Bool) (now : ℕ) : DB → List ProcessedDocument → Except String DB
  | db, [] => .ok db
  | db, d :: rest =>
    match upsertDoc useVec now db d with
    | .error e => .error e
    | .ok db2 => foldUpserts useVec now db2 rest

lemma runUpserts_ok_foldUpserts (useVec : Bool) (now : ℕ) (fail : ℕ → Bool) :
    ∀ (docs : List ProcessedDocument) (i : ℕ) (txn db2 : DB),
      runUpserts useVec now fail i txn docs = .ok db2 →
      foldUpserts useVec now txn docs = .ok db2 := by
  intro docs
  induction docs with
  | nil =>
    intro i txn db2 h
    rw [runUpserts] at h
    rw [foldUpserts]
    exact h
  | cons d rest ih =>
    intro i txn db2 h
    rw [runUpserts] at h
    by_cases hf : fail i
    · rw [if_pos hf] at h; exact absurd h (by simp)
    · rw [if_neg hf] at h
      rw [foldUpserts]
      cases hu : upsertDoc useVec now txn d with
      | error e => rw [hu] at h; exact absurd h (by simp)
      | ok txn2 =>
        rw [hu] at h
        exact ih (i + 1) txn2 db2 h

/-- C4: `storeDocuments` is all-or-nothing.  Either every upsert of the
batch succeeds, the transaction commits, and the visible state is exactly
the fold of the per-record upserts over the batch; or some upsert fails,
the whole batch is rolled back (the visible state is the unchanged
pre-transaction state) and the error is re-raised to the caller.  No state
persisting only part of the batch is ever visible. -/
theorem store_atomicity (useVec : Bool) (now : ℕ) (fail : ℕ → Bool) (db : DB)
    (docs : List ProcessedDocument) :
    (∃ e, storeDocuments useVec now fail db docs = (db, some e)) ∨
    (∃ db2, storeDocuments useVec now fail db docs = (db2, none) ∧
      foldUpserts useVec now db docs = .ok db2) := by
  unfold storeDocuments
  cases hr : runUpserts useVec now fail 0 db docs with
  | error e => exact Or.inl ⟨e, rfl⟩
  | ok txn =>
    exact Or.inr ⟨txn, rfl, runUpserts_ok_foldUpserts useVec now fail docs 0 db txn hr⟩

/-! ### C5: embedding-dimension invariant -/

lemma upsertDoc_dim_preserve (now : ℕ) (db : DB) (d : ProcessedDocument) (db2 : DB)
    (hdb : ∀ p ∈ db, p.2.embedding.length = 1536)
    (h : upsertDoc true now db d = .ok db2) :
    ∀ p ∈ db2, p.2.embedding.length = 1536 := by
  unfold upsertDoc at h
  by_cases hdim : d.embedding.length ≠ 1536
  · rw [if_pos ⟨rfl, hdim⟩] at h
    exact absurd h (by simp)
  · rw [if_neg (fun hand => hdim hand.2)] at h
    push_neg at hdim
    cases hl : lookupRow db d.id with
    | some r =>
      rw [hl] at h
      have hdb2 : db2 = updateRow db d.id d.content d.embedding now := by
        simpa using h.symm
      subst hdb2
      intro p hp
      obtain ⟨q, hq, hpq⟩ := List.mem_map.mp hp
      by_cases hqe : q.1 = d.id
      · rw [if_pos hqe] at hpq
        rw [← hpq]
        exact hdim
      · rw [if_neg hqe] at hpq
        rw [← hpq]
        exact hdb q hq
    | none =>
      rw [hl] at h
      have hdb2 : db2 = db ++ [(d.id, mkRow now d)] := by
        simpa using h.symm
      subst hdb2
      intro p hp
      rcases List.mem_append.mp hp with hp | hp
      · exact hdb p hp
      · have : p = (d.id, mkRow now d) := by simpa using hp
        rw [this]
        exact hdim

lemma runUpserts_dim_preserve (now : ℕ) (fail : ℕ → Bool) :
    ∀ (docs : List ProcessedDocument) (i : ℕ) (txn db2 : DB),
      (∀ p ∈ txn, p.2.embedding.length = 1536) →
      runUpserts true now fail i txn docs = .ok db2 →
      ∀ p ∈ db2, p.2.embedding.length = 1536 := by
  intro docs
  induction docs with
  | nil =>
    intro i txn db2 htxn h
    rw [runUpserts] at h
    obtain rfl : txn = db2 := by simpa using h
    exact htxn
  | cons d rest ih =>
    intro i txn db2 htxn h
    rw [runUpserts] at h
    by_cases hf : fail i
    · rw [if_pos hf] at h; exact absurd h (by simp)
    · rw [if_neg hf] at h
      cases hu : upsertDoc true now txn d with
      | error e => rw [hu] at h; exact absurd h (by simp)
      | ok txn2 =>
        rw [hu] at h
        exact ih (i + 1) txn2 db2 (upsertDoc_dim_preserve now txn d txn2 htxn hu) h

/-- C5 (amended): in indexed mode the `vector(1536)` column makes every
reachable state dimension-homogeneous — starting from a state in which all
embeddings have length 1536, after any `storeDocuments` call (commit or
rollback) all persisted embeddings still have length 1536; a batch with a
wrong-dimension embedding is rejected and rolled back.  In scalar-fallback
mode there is no such check and mixed dimensions are reachable (see the
counterexample). -/
theorem dimension_invariant_amended (now : ℕ) (fail : ℕ → Bool) (db : DB)
    (docs : List ProcessedDocument)
    (hdb : ∀ p ∈ db, p.2.embedding.length = 1536) :
    ∀ p ∈ (storeDocuments true now fail db docs).1, p.2.embedding.length = 1536 := by
  unfold storeDocuments
  cases hr : runUpserts true now fail 0 db docs with
  | error e => exact hdb
  | ok txn => exact runUpserts_dim_preserve now fail docs 0 db txn hdb hr

/-- Batch documents used by the store counterexamples and witnesses. -/
def doc1 : ProcessedDocument := ⟨"d1".data, "x".data, "f".data, "2020".data, 0, [(1:ℝ)]⟩

/-- A second document whose embedding has a different dimension. -/
def doc2 : ProcessedDocument := ⟨"d2".data, "y".data, "f".data, "2020".data, 1, [(1:ℝ), (2:ℝ)]⟩

/-- The no-external-failure oracle. -/
def noFail : ℕ → Bool := fun _ => false

/-- C5 counterexample.  In scalar-fallback mode `storeDocuments` happily
commits a batch whose embeddings have dimensions 1 and 2: the resulting
state holds two persisted records with embeddings of different lengths, and
the batch was not rejected (`none` error), so the store neither rejects
mixed dimensions nor avoids producing them. -/
theorem mixed_dimension_counterexample :
    (storeDocuments false 0 noFail [] [doc1, doc2]).2 = none ∧
    lookupRow (storeDocuments false 0 noFail [] [doc1, doc2]).1 ("d1".data) =
      some (mkRow 0 doc1) ∧
    lookupRow (storeDocuments false 0 noFail [] [doc1, doc2]).1 ("d2".data) =
      some (mkRow 0 doc2) ∧
    (mkRow 0 doc1).embedding.length = 1 ∧
    (mkRow 0 doc2).embedding.length = 2 ∧
    (1 : ℕ) ≠ 2 := by
  refine ⟨rfl, rfl, rfl, rfl, rfl, by omega⟩

/-- The document with a well-dimensioned (1536) embedding. -/
def doc1536 : ProcessedDocument :=
  ⟨"dk".data, "z".data, "f".data, "2020".data, 0, List.replicate 1536 (0:ℝ)⟩

set_option maxRecDepth 20000 in
/-- Witness for `dimension_invariant_amended` on the singleton batch
`[doc1536]` stored into the empty table in indexed mode. -/
theorem dimension_invariant_amended_witness :
    lookupRow (storeDocuments true 0 noFail [] [doc1536]).1 ("dk".data) =
      some (mkRow 0 doc1536) ∧
    (mkRow 0 doc1536).embedding.length = 1536 := by
  have h := dimension_invariant_amended 0 noFail [] [doc1536] (by simp)
  refine ⟨rfl, ?_⟩
  have hmem : ("dk".data, mkRow 0 doc1536) ∈ (storeDocuments true 0 noFail [] [doc1536]).1 := by
    have hst : (storeDocuments true 0 noFail [] [doc1536]).1 =
        [("dk".data, mkRow 0 doc1536)] := rfl
    rw [hst]
    simp
  exact h ("dk".data, mkRow 0 doc1536) hmem

/-! ### C8: upsert frame conditions and idempotent re-store -/

lemma lookupRow_updateRow_self :
    ∀ (db : DB) (i c : List Char) (e : List ℝ) (now : ℕ) (r : StoredRow),
      lookupRow db i = some r →
      lookupRow (updateRow db i c e now) i =
        some { r with content := c, embedding := e, updated_at := now } := by
  intro db
  induction db with
  | nil => intro i c e now r h; exact absurd h (by simp [lookupRow])
  | cons p rest ih =>
    intro i c e now r h
    rw [lookupRow] at h
    unfold updateRow
    rw [List.map_cons]
    by_cases hp : p.1 = i
    · rw [if_pos hp] at h ⊢
      rw [lookupRow]
      rw [if_pos hp]
      rw [Option.some.inj h]
    · rw [if_neg hp] at h ⊢
      rw [lookupRow]
      rw [if_neg hp]
      exact ih i c e now r h

lemma lookupRow_updateRow_other :
    ∀ (db : DB) (i c : List Char) (e : List ℝ) (now : ℕ) (k : List Char), k ≠ i →
      lookupRow (updateRow db i c e now) k = lookupRow db k := by
  intro db
  induction db with
  | nil => intro i c e now k hk; rfl
  | cons p rest ih =>
    intro i c e now k hk
    unfold updateRow
    rw [List.map_cons]
    by_cases hp : p.1 = i
    · rw [if_pos hp]
      rw [lookupRow, lookupRow]
      have hne : ¬(p.1 = k) := by rw [hp]; exact fun h2 => hk h2.symm
      rw [if_neg hne, if_neg hne]
      exact ih i c e now k hk
    · rw [if_neg hp]
      rw [lookupRow, lookupRow]
      by_cases hpk : p.1 = k
      · rw [if_pos hpk, if_pos hpk]
      · rw [if_neg hpk, if_neg hpk]
        exact ih i c e now k hk

lemma updateRow_length (db : DB) (i c : List Char) (e : List ℝ) (now : ℕ) :
    (updateRow db i c e now).length = db.length := by
  unfold updateRow
  exact List.length_map _ _

lemma lookupRow_append (db1 db2 : DB) (k : List Char) :
    lookupRow (db1 ++ db2) k =
      match lookupRow db1 k with
      | some r => some r
      | none => lookupRow db2 k := by
  induction db1 with
  | nil => rfl
  | cons p rest ih =>
    rw [List.cons_append, lookupRow, lookupRow]
    by_cases hp : p.1 = k
    · rw [if_pos hp, if_pos hp]
    · rw [if_neg hp, if_neg hp]
      exact ih

lemma upsertDoc_ok_guard (useVec : Bool) (now : ℕ) (db : DB) (d : ProcessedDocument)
    (db2 : DB) (h : upsertDoc useVec now db d = .ok db2) :
    ¬(useVec = true ∧ d.embedding.length ≠ 1536) := by
  intro hand
  unfold upsertDoc at h
  rw [if_pos hand] at h
  exact absurd h (by simp)

lemma upsertDoc_ok_present_self (useVec : Bool) (now : ℕ) (db : DB)
    (d : ProcessedDocument) (db2 : DB) (h : upsertDoc useVec now db d = .ok db2) :
    (lookupRow db2 d.id).isSome = true := by
  unfold upsertDoc at h
  by_cases hg : useVec = true ∧ d.embedding.length ≠ 1536
  · rw [if_pos hg] at h; exact absurd h (by simp)
  · rw [if_neg hg] at h
    cases hl : lookupRow db d.id with
    | some r =>
      rw [hl] at h
      obtain rfl : updateRow db d.id d.content d.embedding now = db2 := by simpa using h
      rw [lookupRow_updateRow_self db d.id d.content d.embedding now r hl]
      rfl
    | none =>
      rw [hl] at h
      obtain rfl : db ++ [(d.id, mkRow now d)] = db2 := by simpa using h
      rw [lookupRow_append, hl, lookupRow]
      rw [if_pos rfl]
      rfl

lemma upsertDoc_ok_present_mono (useVec : Bool) (now : ℕ) (db : DB)
    (d : ProcessedDocument) (db2 : DB) (h : upsertDoc useVec now db d = .ok db2)
    (k : List Char) (hk : (lookupRow db k).isSome = true) :
    (lookupRow db2 k).isSome = true := by
  unfold upsertDoc at h
  by_cases hg : useVec = true ∧ d.embedding.length ≠ 1536
  · rw [if_pos hg] at h; exact absurd h (by simp)
  · rw [if_neg hg] at h
    cases hl : lookupRow db d.id with
    | some r =>
      rw [hl] at h
      obtain rfl : updateRow db d.id d.content d.embedding now = db2 := by simpa using h
      by_cases hkd : k = d.id
      · rw [hkd, lookupRow_updateRow_self db d.id d.content d.embedding now r hl]
        rfl
      · rw [lookupRow_updateRow_other db d.id d.content d.embedding now k hkd]
        exact hk
    | none =>
      rw [hl] at h
      obtain rfl : db ++ [(d.id, mkRow now d)] = db2 := by simpa using h
      rw [lookupRow_append]
      cases hlk : lookupRow db k with
      | some r => rfl
      | none => rw [hlk] at hk; exact absurd hk (by simp)

lemma upsertDoc_ok_length_of_present (useVec : Bool) (now : ℕ) (db : DB)
    (d : ProcessedDocument) (db2 : DB) (h : upsertDoc useVec now db d = .ok db2)
    (hp : (lookupRow db d.id).isSome = true) :
    db2.length = db.length := by
  unfold upsertDoc at h
  by_cases hg : useVec = true ∧ d.embedding.length ≠ 1536
  · rw [if_pos hg] at h; exact absurd h (by simp)
  · rw [if_neg hg] at h
    cases hl : lookupRow db d.id with
    | some r =>
      rw [hl] at h
      obtain rfl : updateRow db d.id d.content d.embedding now = db2 := by simpa using h
      exact updateRow_length db d.id d.content d.embedding now
    | none => rw [hl] at hp; exact absurd hp (by simp)

lemma runUpserts_ok_mono (useVec : Bool) (now : ℕ) (fail : ℕ → Bool) :
    ∀ (docs : List ProcessedDocument) (i : ℕ) (txn db2 : DB),
      runUpserts useVec now fail i txn docs = .ok db2 →
      ∀ k, (lookupRow txn k).isSome = true → (lookupRow db2 k).isSome = true := by
  intro docs
  induction docs with
  | nil =>
    intro i txn db2 h k hk
    rw [runUpserts] at h
    obtain rfl : txn = db2 := by simpa using h
    exact hk
  | cons d rest ih =>
    intro i txn db2 h k hk
    rw [runUpserts] at h
    by_cases hf : fail i
    · rw [if_pos hf] at h; exact absurd h (by simp)
    · rw [if_neg hf] at h
      cases hu : upsertDoc useVec now txn d with
      | error e => rw [hu] at h; exact absurd h (by simp)
      | ok txn2 =>
        rw [hu] at h
        exact ih (i + 1) txn2 db2 h k
          (upsertDoc_ok_present_mono useVec now txn d txn2 hu k hk)

lemma runUpserts_ok_present (useVec : Bool) (now : ℕ) (fail : ℕ → Bool) :
    ∀ (docs : List ProcessedDocument) (i : ℕ) (txn db2 : DB),
      runUpserts useVec now fail i txn docs = .ok db2 →
      ∀ d ∈ docs, (lookupRow db2 d.id).isSome = true := by
  intro docs
  induction docs with
  | nil => intro i txn db2 h d hd; exact absurd hd (by simp)
  | cons d0 rest ih =>
    intro i txn db2 h d hd
    rw [runUpserts] at h
    by_cases hf : fail i
    · rw [if_pos hf] at h; exact absurd h (by simp)
    · rw [if_neg hf] at h
      cases hu : upsertDoc useVec now txn d0 with
      | error e => rw [hu] at h; exact absurd h (by simp)
      | ok txn2 =>
        rw [hu] at h
        rcases List.mem_cons.mp hd with rfl | hd
        · exact runUpserts_ok_mono useVec now fail rest (i + 1) txn2 db2 h d.id
            (upsertDoc_ok_present_self useVec now txn d txn2 hu)
        · exact ih (i + 1) txn2 db2 h d hd

lemma runUpserts_ok_guards (useVec : Bool) (now : ℕ) (fail : ℕ → Bool) :
    ∀ (docs : List ProcessedDocument) (i : ℕ) (txn db2 : DB),
      runUpserts useVec now fail i txn docs = .ok db2 →
      ∀ d ∈ docs, ¬(useVec = true ∧ d.embedding.length ≠ 1536) := by
  intro docs
  induction docs with
  | nil => intro i txn db2 h d hd; exact absurd hd (by simp)
  | cons d0 rest ih =>
    intro i txn db2 h d hd
    rw [runUpserts] at h
    by_cases hf : fail i
    · rw [if_pos hf] at h; exact absurd h (by simp)
    · rw [if_neg hf] at h
      cases hu : upsertDoc useVec now txn d0 with
      | error e => rw [hu] at h; exact absurd h (by simp)
      | ok txn2 =>
        rw [hu] at h
        rcases List.mem_cons.mp hd with rfl | hd
        · exact upsertDoc_ok_guard useVec now txn d txn2 hu
        · exact ih (i + 1) txn2 db2 h d hd

lemma runUpserts_all_present_length (useVec : Bool) (now2 : ℕ) (fail2 : ℕ → Bool) :
    ∀ (docs : List ProcessedDocument) (i : ℕ) (txn db2 : DB),
      (∀ d ∈ docs, (lookupRow txn d.id).isSome = true) →
      runUpserts useVec now2 fail2 i txn docs = .ok db2 →
      db2.length = txn.length := by
  intro docs
  induction docs with
  | nil =>
    intro i txn db2 hpr h
    rw [runUpserts] at h
    obtain rfl : txn = db2 := by simpa using h
    rfl
  | cons d0 rest ih =>
    intro i txn db2 hpr h
    rw [runUpserts] at h
    by_cases hf : fail2 i
    · rw [if_pos hf] at h; exact absurd h (by simp)
    · rw [if_neg hf] at h
      cases hu : upsertDoc useVec now2 txn d0 with
      | error e => rw [hu] at h; exact absurd h (by simp)
      | ok txn2 =>
        rw [hu] at h
        have hlen : txn2.length = txn.length :=
          upsertDoc_ok_length_of_present useVec now2 txn d0 txn2 hu
            (hpr d0 (by simp))
        have hpr2 : ∀ d ∈ rest, (lookupRow txn2 d.id).isSome = true := by
          intro d hd
          exact upsertDoc_ok_present_mono useVec now2 txn d0 txn2 hu d.id
            (hpr d (by simp [hd]))
        rw [ih (i + 1) txn2 db2 hpr2 h, hlen]

/-- C8: upsert frame.  (1) When a record with an already-present id is
re-submitted and its upsert succeeds, the stored row keeps its `filename`,
`year`, `chunk_index`, `total_chunks`, `source` and `created_at` columns and
only `content`, `embedding` and `updated_at` change; no other row changes
and the record count is unchanged.  (2) After a successful `storeDocuments`
of a batch, re-storing the identical batch leaves the total record count
unchanged (whether the second call commits or rolls back). -/
theorem upsert_frame :
    (∀ (useVec : Bool) (now : ℕ) (db : DB) (d : ProcessedDocument) (r : StoredRow)
        (db2 : DB),
      lookupRow db d.id = some r →
      upsertDoc useVec now db d = .ok db2 →
      lookupRow db2 d.id =
        some { r with content := d.content, embedding := d.embedding, updated_at := now } ∧
      (∀ k, k ≠ d.id → lookupRow db2 k = lookupRow db k) ∧
      db2.length = db.length) ∧
    (∀ (useVec : Bool) (now : ℕ) (fail : ℕ → Bool) (db : DB)
        (docs : List ProcessedDocument) (db1 : DB),
      storeDocuments useVec now fail db docs = (db1, none) →
      ∀ (now2 : ℕ) (fail2 : ℕ → Bool),
        ((storeDocuments useVec now2 fail2 db1 docs).1).length = db1.length) := by
  constructor
  · intro useVec now db d r db2 hl h
    unfold upsertDoc at h
    by_cases hg : useVec = true ∧ d.embedding.length ≠ 1536
    · rw [if_pos hg] at h; exact absurd h (by simp)
    · rw [if_neg hg, hl] at h
      obtain rfl : updateRow db d.id d.content d.embedding now = db2 := by simpa using h
      refine ⟨lookupRow_updateRow_self db d.id d.content d.embedding now r hl, ?_, ?_⟩
      · intro k hk
        exact lookupRow_updateRow_other db d.id d.content d.embedding now k hk
      · exact updateRow_length db d.id d.content d.embedding now
  · intro useVec now fail db docs db1 h now2 fail2
    unfold storeDocuments at h
    cases hr : runUpserts useVec now fail 0 db docs with
    | error e => rw [hr] at h; exact absurd h (by simp)
    | ok txn =>
      rw [hr] at h
      obtain ⟨rfl, -⟩ : txn = db1 ∧ True := by
        constructor
        · exact congrArg Prod.fst h
        · trivial
      have hpresent := runUpserts_ok_present useVec now fail docs 0 db txn hr
      unfold storeDocuments
      cases hr2 : runUpserts useVec now2 fail2 0 txn docs with
      | error e => rfl
      | ok txn2 =>
        exact runUpserts_all_present_length useVec now2 fail2 docs 0 txn txn2 hpresent hr2

/-- A pre-existing stored row for the C8 witness. -/
def row0 : StoredRow :=
  ⟨"old".data, "f".data, "2020".data, 0, 1, defaultSource, [(5:ℝ)], 3, 3⟩

/-- A re-submission of the same id with new content and embedding. -/
def docU : ProcessedDocument := ⟨"r1".data, "new".data, "f".data, "2020".data, 0, [(7:ℝ)]⟩

/-- The one-row table holding `row0` under the id of `docU`. -/
def dbW : DB := [("r1".data, row0)]

/-- Witness for `upsert_frame` on the concrete table `dbW`. -/
theorem upsert_frame_witness :
    lookupRow (updateRow dbW docU.id docU.content docU.embedding 9) docU.id =
      some { row0 with content := docU.content, embedding := docU.embedding,
                       updated_at := 9 } ∧
    (updateRow dbW docU.id docU.content docU.embedding 9).length = dbW.length ∧
    ((storeDocuments false 11 noFail
        (updateRow dbW docU.id docU.content docU.embedding 9) [docU]).1).length =
      (updateRow dbW docU.id docU.content docU.embedding 9).length := by
  have h1 := upsert_frame.1 false 9 dbW docU row0
    (updateRow dbW docU.id docU.content docU.embedding 9) rfl rfl
  have h2 := upsert_frame.2 false 9 noFail dbW [docU]
    (updateRow dbW docU.id docU.content docU.embedding 9) rfl 11 noFail
  exact ⟨h1.1, h1.2.2, h2⟩

/-! ### `initialize` (vectorStore.ts 29-112) -/

/-- Outcomes of the external operations `initialize` performs, in program
order: the connection test (`SELECT 1`), the `CREATE EXTENSION vector`
probe, the `CREATE TABLE` for the selected mode, the embedding index
(`ivfflat` in indexed mode, GIN in scalar mode), and the two metadata
indexes on `year` and `filename`. -/
structure InitEnv where
  connectOk : Bool
  extensionOk : Bool
  createTableOk : Bool
  createEmbIndexOk : Bool
  createYearIdxOk : Bool
  createFileIdxOk : Bool

/-- `initialize`: the connection test failing aborts (outer catch
re-raises); the extension probe is wrapped in its own try/catch whose
handler only logs and sets `useVectorExtension = false`; every subsequent
DDL failure aborts via the outer catch.  On success the chosen mode
(`useVectorExtension`) is exactly the probe outcome. -/
def initializeStore (env : InitEnv) : Except String Bool :=
  if env.connectOk = false then .error "connection failed"
  else
    let useVectorExtension := env.extensionOk
    if env.createTableOk = false then .error "table creation failed"
    else if env.createEmbIndexOk = false then .error "embedding index creation failed"
    else if env.createYearIdxOk = false then .error "year index creation failed"
    else if env.createFileIdxOk = false then .error "filename index creation failed"
    else .ok useVectorExtension

/-- Error detector for `initialize` (the `Except.isOk` complement). -/
def initFailed (x : Except String Bool) : Bool :=
  match x with
  | .ok _ => false
  | .error _ => true

/-- C9: the extension probe is never fatal.  `initialize` fails exactly when
the connection test or one of the table/index creations fails — never
because the probe failed; whenever it succeeds the selected mode equals the
probe outcome, so a failed probe silently selects scalar mode. -/
theorem initialize_probe_nonfatal (env : InitEnv) :
    (env.connectOk = true → env.createTableOk = true → env.createEmbIndexOk = true →
      env.createYearIdxOk = true → env.createFileIdxOk = true →
      initializeStore env = .ok env.extensionOk) ∧
    (initFailed (initializeStore env) = true ↔
      (env.connectOk = false ∨ env.createTableOk = false ∨ env.createEmbIndexOk = false ∨
        env.createYearIdxOk = false ∨ env.createFileIdxOk = false)) ∧
    (∀ b, initializeStore env = .ok b → b = env.extensionOk) := by
  obtain ⟨c, e, t, i1, i2, i3⟩ := env
  cases c <;> cases e <;> cases t <;> cases i1 <;> cases i2 <;> cases i3 <;>
    simp [initializeStore, initFailed]

/-- Witness for `initialize_probe_nonfatal`: connection and DDL succeed but
the probe fails, and initialization still succeeds, in scalar mode. -/
theorem initialize_probe_nonfatal_witness :
    initializeStore ⟨true, false, true, true, true, true⟩ = .ok false := by
  have h := (initialize_probe_nonfatal ⟨true, false, true, true, true, true⟩).1
    rfl rfl rfl rfl rfl
  exact h
